import Mathlib

set_option linter.unusedVariables false

/-! Verification of the raw-HTML editor tool (`src/index.js`): a shallow
embedding of its script-rehydration engine (`_executeScripts`), the render
wiring, and the constructor's data handling, together with proofs of the
specified properties. -/

/-- An element attribute: a name/value pair, as in the DOM `Element.attributes`
collection. -/
structure Attr where
  name : String
  value : String
deriving DecidableEq, Repr

mutual
/-- A DOM node: a text node, or an element with a tag name, an attribute list
and an ordered child list. -/
inductive Node where
  | text : String → Node
  | elem : String → List Attr → NodeList → Node
deriving DecidableEq, Repr
/-- An ordered list of sibling DOM nodes. -/
inductive NodeList where
  | nil : NodeList
  | cons : Node → NodeList → NodeList
deriving DecidableEq, Repr
end

/-- Convert a plain list of nodes into a `NodeList` (used to write concrete
test documents). -/
def nodeListOf : List Node → NodeList
  | [] => .nil
  | c :: cs => .cons c (nodeListOf cs)

/-- The `j`-th child of a sibling list, as in `parentNode.childNodes[j]`. -/
def getChild : Nat → NodeList → Option Node
  | _, .nil => none
  | 0, .cons c _ => some c
  | j + 1, .cons _ cs => getChild j cs

/-- Replace the `j`-th child of a sibling list by a fixed node; out-of-range
indices leave the list unchanged. -/
def setChild : Nat → Node → NodeList → NodeList
  | _, _, .nil => .nil
  | 0, x, .cons _ cs => .cons x cs
  | j + 1, x, .cons c cs => .cons c (setChild j x cs)

/-- Apply a function to the `j`-th child of a sibling list, leaving the other
siblings untouched. -/
def mapAtChild (f : Node → Node) : Nat → NodeList → NodeList
  | _, .nil => .nil
  | 0, .cons c cs => .cons (f c) cs
  | j + 1, .cons c cs => .cons c (mapAtChild f j cs)

/-- `replaceChild` at a path: `replaceAt p n new` replaces the node reached
from `n` by the child-index path `p` with `new`.  This is the embedding of
`oldScript.parentNode.replaceChild(newScript, oldScript)`, with the original
element identified by its position (path) in the container. -/
def replaceAt : List Nat → Node → Node → Node
  | [], _, new => new
  | _ :: _, .text s, _ => .text s
  | j :: p, .elem t a cs, new => .elem t a (mapAtChild (fun c => replaceAt p c new) j cs)

/-- Look up the node at a child-index path. -/
def getN : List Nat → Node → Option Node
  | [], n => some n
  | _ :: _, .text _ => none
  | j :: p, .elem _ _ cs => (getChild j cs).bind (fun c => getN p c)

mutual
/-- `textContent` of a node: the concatenation of all descendant text. -/
def textContent : Node → String
  | .text s => s
  | .elem _ _ cs => textContentList cs
/-- `textContent` across a sibling list. -/
def textContentList : NodeList → String
  | .nil => ""
  | .cons c cs => textContent c ++ textContentList cs
end

/-- One entry of the materialized `Array.from(container.querySelectorAll('script'))`
snapshot: the script element's position (path from the container), its
attribute list, and its `textContent`. -/
structure ScriptDesc where
  path : List Nat
  attrs : List Attr
  text : String
deriving DecidableEq, Repr

mutual
/-- Script descriptors contributed by one node standing at child index `i`
under the (already traversed) path `pre`: the node itself if it is a
`script` element, followed by its descendant scripts in document order. -/
def snapNode (pre : List Nat) (i : Nat) : Node → List ScriptDesc
  | .text _ => []
  | .elem tag as cs =>
      (if tag == "script" then [⟨pre ++ [i], as, textContentList cs⟩] else [])
        ++ snapKids (pre ++ [i]) 0 cs
/-- Script descriptors contributed by a sibling list whose first element
stands at child index `i` under the path `pre`, in document order. -/
def snapKids (pre : List Nat) (i : Nat) : NodeList → List ScriptDesc
  | .nil => []
  | .cons c cs => snapNode pre i c ++ snapKids pre (i + 1) cs
end

/-- `Array.from(container.querySelectorAll('script'))`: every script element
strictly inside the container, in pre-order document order. -/
def snapshot : Node → List ScriptDesc
  | .text _ => []
  | .elem _ _ cs => snapKids [] 0 cs

/-- `element.setAttribute(n, v)`: overwrite the value in place if an attribute
named `n` exists, otherwise append a fresh attribute at the end. -/
def setAttribute (as : List Attr) (n v : String) : List Attr :=
  if as.any (fun a => a.name == n) then
    as.map (fun a => if a.name == n then ⟨n, v⟩ else a)
  else as ++ [⟨n, v⟩]

/-- The attribute-copy loop
`Array.from(oldScript.attributes).forEach(attr => newScript.setAttribute(attr.name, attr.value))`
starting from a freshly created element (no attributes). -/
def copyAttrs (source : List Attr) : List Attr :=
  source.foldl (fun acc a => setAttribute acc a.name a.value) []

/-- `newScript.textContent = t`: the resulting child list (empty for the empty
string, a single text node otherwise). -/
def setTextContent (t : String) : NodeList :=
  if t = "" then .nil else .cons (.text t) .nil

/-- The replacement element built for one descriptor:
`document.createElement('script')` followed by the attribute-copy loop and the
`textContent` assignment. -/
def mkReplacement (d : ScriptDesc) : Node :=
  .elem "script" (copyAttrs d.attrs) (setTextContent d.text)

/-- The attribute list of a node (empty for text nodes). -/
def attrsOf : Node → List Attr
  | .text _ => []
  | .elem _ as _ => as

/-- Truthiness of `script.src`: the reflected `src` IDL attribute is the
resolved URL, which is non-empty (hence truthy) exactly when a `src` content
attribute is present (an absent attribute reflects as the empty string). -/
def hasSrc (as : List Attr) : Bool := as.any (fun a => a.name == "src")

/-- Outcome of fetching one external script: the `load` event or the `error`
event. -/
inductive LoadResult where
  | ok : LoadResult
  | err : LoadResult
deriving DecidableEq, Repr

/-- Whether a load outcome is the `load` event. -/
def LoadResult.isOk : LoadResult → Bool
  | .ok => true
  | .err => false

/-- The ambient environment of one rehydration pass: for the script at
snapshot index `i`, whether its external fetch (if any) succeeds, how long it
takes, and what executing the script does to the container subtree (a script
may mutate the DOM arbitrarily). -/
structure Env where
  result : Nat → LoadResult
  latency : Nat → Nat
  eff : Nat → Node → Node

/-- The observable outcome of a rehydration pass: the final container tree,
the execution log (time stamp and snapshot index of every script that ran, in
execution order), the processed-descriptor trace (every descriptor the pass
swapped, in processing order), and the final clock. -/
structure PassResult where
  tree : Node
  log : List (Nat × Nat)
  trace : List ScriptDesc
  clock : Nat
deriving Repr

/-- The continuation `runNext(index)` of `_executeScripts`, embedded over the
remaining materialized descriptors.  Per descriptor: build the replacement
(attribute copy, `textContent` copy), swap it into the original position,
then either advance immediately (inline script: the swap executes it
synchronously) or advance only when the single pending `load`/`error` signal
fires (external script: execution happens at the `load` event, an `error`
event advances without executing). -/
def runNext (env : Env) :
    List ScriptDesc → Nat → Node → List (Nat × Nat) → List ScriptDesc → Nat → PassResult
  | [], _, tree, log, trace, clock => ⟨tree, log, trace, clock⟩
  | d :: rest, index, tree, log, trace, clock =>
    let newScript := mkReplacement d
    let tree1 := replaceAt d.path tree newScript
    if hasSrc (attrsOf newScript) then
      let t := clock + env.latency index
      match env.result index with
      | .ok =>
          runNext env rest (index + 1) (env.eff index tree1)
            (log ++ [(t, index)]) (trace ++ [d]) t
      | .err =>
          runNext env rest (index + 1) tree1 log (trace ++ [d]) t
    else
      runNext env rest (index + 1) (env.eff index tree1)
        (log ++ [(clock, index)]) (trace ++ [d]) clock

/-- `_executeScripts(container)`: materialize the script snapshot once, then
run the continuation chain from index `0`. -/
def executeScripts (env : Env) (container : Node) : PassResult :=
  let scripts := snapshot container
  runNext env scripts 0 container [] [] 0

/-- Whether the script at snapshot index `i` with descriptor `d` actually
executes during the pass: inline scripts always do, external scripts exactly
when their fetch fires `load`. -/
def executes (env : Env) (i : Nat) (d : ScriptDesc) : Bool :=
  !hasSrc d.attrs || (env.result i).isOk

/-- The expected sequence of executed snapshot indices for descriptors
starting at index `i`. -/
def expectedLog (env : Env) : Nat → List ScriptDesc → List Nat
  | _, [] => []
  | i, d :: rest => (if executes env i d then [i] else []) ++ expectedLog env (i + 1) rest

mutual
/-- No `script` element occurs in this subtree (the node included). -/
def noScriptsN : Node → Bool
  | .text _ => true
  | .elem t _ cs => !(t == "script") && noScriptsL cs
/-- No `script` element occurs anywhere in these subtrees. -/
def noScriptsL : NodeList → Bool
  | .nil => true
  | .cons c cs => noScriptsN c && noScriptsL cs
end

/-- A path is clean below a node: it leads through non-`script` elements to a
`script` element that itself contains no nested `script` element.  (HTML
parsing cannot produce nested scripts, so every snapshot path of a parsed
container is clean.) -/
def okN : List Nat → Node → Bool
  | [], .text _ => false
  | [], .elem t _ cs => (t == "script") && noScriptsL cs
  | _ :: _, .text _ => false
  | j :: p, .elem t _ cs =>
      !(t == "script") &&
        (match getChild j cs with
          | none => false
          | some c => okN p c)

/-- A path is clean inside a container (the container's own tag is
irrelevant: `querySelectorAll` only matches strict descendants). -/
def okC (container : Node) : List Nat → Bool
  | [] => false
  | j :: p =>
      match container with
      | .text _ => false
      | .elem _ _ cs =>
          match getChild j cs with
          | none => false
          | some c => okN p c

/-- Update one snapshot entry: the descriptor whose path is `q` gets the
attribute list `A` and text `t`; every other descriptor is unchanged. -/
def updAt (q : List Nat) (A : List Attr) (t : String) (d : ScriptDesc) : ScriptDesc :=
  if d.path = q then ⟨q, A, t⟩ else d

/-- Fold the swap of every descriptor's replacement over a tree (the total
DOM mutation a pass performs when scripts themselves do not mutate the
tree). -/
def applyAll (tree : Node) (ds : List ScriptDesc) : Node :=
  ds.foldl (fun t d => replaceAt d.path t (mkReplacement d)) tree

/-- A JavaScript value, as far as the constructor's `data.html || ''` idiom
is concerned. -/
inductive JsVal where
  | undef : JsVal
  | nullv : JsVal
  | bool : Bool → JsVal
  | num : Int → JsVal
  | str : String → JsVal
  | obj : JsVal
deriving DecidableEq, Repr

/-- JavaScript truthiness of a value. -/
def truthy : JsVal → Bool
  | .undef => false
  | .nullv => false
  | .bool b => b
  | .num n => !(n == 0)
  | .str s => !(s == "")
  | .obj => true

/-- The JavaScript `||` operator: the left operand if truthy, else the right
operand. -/
def jsOr (a b : JsVal) : JsVal := if truthy a then a else b

/-- `this.data = { html: data.html || '' }`: the stored markup as a function
of the incoming `data.html` field (`undef` when the field is absent). -/
def constructorHtml (dataHtml : JsVal) : JsVal := jsOr dataHtml (.str "")

/-- An action scheduled with `setTimeout` during `render`. -/
inductive TimerAction where
  | execScriptsOn : Nat → TimerAction
  | resize : TimerAction
deriving DecidableEq, Repr

/-- A pending `setTimeout` registration: delay in milliseconds and action.
For `execScriptsOn j`, the target of `_executeScripts` is the wrapper child
at index `j`. -/
structure Timer where
  delay : Nat
  action : TimerAction
deriving DecidableEq, Repr

/-- `const renderingTime = 100`. -/
def renderingTime : Nat := 100

/-- What `render()` produces: the wrapper element, the list of `setTimeout`
registrations in registration order, and whether an `input` listener was
attached to the textarea. -/
structure RenderResult where
  wrapper : Node
  timers : List Timer
  inputListener : Bool
deriving Repr

/-- The `render()` method.  `parse` is the HTML parser behind the `innerHTML`
setter (markup parsing builds an inert subtree and executes nothing);
`baseClass`/`inputClass` come from `api.styles`.  The wrapper holds the
textarea (disabled and hidden in read-only mode) and, in read-only mode only,
a div whose children are the parsed stored markup; `_executeScripts` is
scheduled against that div after `renderingTime`, and the resize pass is
scheduled unconditionally. -/
def render (parse : String → List Node) (baseClass inputClass : String)
    (readOnly : Bool) (html placeholder : String) : RenderResult :=
  let textarea : Node :=
    .elem "textarea"
      ([⟨"class", "ce-rawtool__textarea " ++ inputClass⟩,
        ⟨"placeholder", placeholder⟩]
        ++ (if readOnly then [⟨"disabled", ""⟩, ⟨"hidden", ""⟩] else []))
      (setTextContent html)
  let kids : List Node :=
    [textarea] ++ (if readOnly then [.elem "div" [] (nodeListOf (parse html))] else [])
  let wrapper : Node := .elem "div" [⟨"class", baseClass ++ " ce-rawtool"⟩] (nodeListOf kids)
  { wrapper := wrapper
    timers := (if readOnly then [⟨renderingTime, .execScriptsOn 1⟩] else [])
      ++ [⟨renderingTime, .resize⟩]
    inputListener := !readOnly }

/-- The children of a node (empty for text nodes). -/
def childrenOf : Node → NodeList
  | .text _ => .nil
  | .elem _ _ cs => cs

/-- An inline script element with the given code. -/
def scrInline (code : String) : Node :=
  .elem "script" [] (.cons (.text code) .nil)

/-- An external script element with the given source URL. -/
def scrExt (url : String) : Node :=
  .elem "script" [⟨"src", url⟩] .nil

/-- An environment where every external fetch succeeds after 3 ticks and no
script mutates the DOM. -/
def envAllOk : Env := ⟨fun _ => .ok, fun _ => 3, fun _ _t => _t⟩

/-- An environment where every external fetch succeeds after 5 ticks. -/
def envSlow : Env := ⟨fun _ => .ok, fun _ => 5, fun _ _t => _t⟩

/-- The spec's end-to-end container: a paragraph, an inline script, a slow
external script, and another inline script. -/
def docMixed : Node :=
  .elem "div" []
    (nodeListOf [.elem "p" [] (.cons (.text "hi") .nil),
                 scrInline "log.push(1)", scrExt "slow.js", scrInline "log.push(3)"])

/-- A container without any script element. -/
def docNoScripts : Node :=
  .elem "div" [] (nodeListOf [.elem "p" [] (.cons (.text "hi") .nil)])

/-- A script that carries both an external source and inline text, alone in a
container. -/
def docExtInline : Node :=
  .elem "div" [] (nodeListOf [.elem "script" [⟨"src", "a.js"⟩] (.cons (.text "x()") .nil)])

/-- Three siblings: a paragraph, an inline script, a paragraph. -/
def sibKids : NodeList :=
  nodeListOf [.elem "p" [] (.cons (.text "before") .nil),
              scrInline "mid()",
              .elem "p" [] (.cons (.text "after") .nil)]

/-- A container whose middle child is a script. -/
def docSib : Node := .elem "div" [] sibKids

/-- The replacement built for the middle script of `docSib`. -/
def newScr : Node := mkReplacement ⟨[1], [], "mid()"⟩

/-- Two inline scripts in a container. -/
def docTwoInline : Node :=
  .elem "div" [] (nodeListOf [scrInline "a()", scrInline "b()"])

-- Sanity checks: the definitions compute.
example :
    textContent (.elem "div" [] (.cons (.text "a") (.cons (.text "b") .nil))) = "ab" := rfl

example :
    snapshot (.elem "div" []
      (nodeListOf [.elem "p" [] (.cons (.text "hi") .nil),
                   .elem "script" [] (.cons (.text "x()") .nil)]))
      = [⟨[1], [], "x()"⟩] := rfl

/-! ### Basic lemmas about attribute copying -/


theorem any_congr_mem {α : Type} (l : List α) (p q : α → Bool)
    (h : ∀ a ∈ l, p a = q a) : l.any p = l.any q := by
  induction l with
  | nil => rfl
  | cons a rest ih =>
    simp only [List.any_cons]
    rw [h a (by simp), ih (fun b hb => h b (by simp [hb]))]

theorem any_name_setAttribute (as : List Attr) (n v nm : String) :
    (setAttribute as n v).any (fun a => a.name == nm)
      = (as.any (fun a => a.name == nm) || (n == nm)) := by
  unfold setAttribute
  by_cases hnm : n = nm
  · subst hnm
    split
    · next hex =>
      simp only [List.any_map, Function.comp]
      rw [Bool.or_comm]
      rw [show (n == n) = true from beq_self_eq_true n, Bool.true_or]
      rw [List.any_eq_true] at hex ⊢
      obtain ⟨a, ha, hname⟩ := hex
      refine ⟨a, ha, ?_⟩
      have : a.name = n := eq_of_beq hname
      simp [this]
    · simp
  · have hbeq : (n == nm) = false := beq_eq_false_iff_ne.mpr hnm
    rw [hbeq, Bool.or_false]
    split
    · next hex =>
      simp only [List.any_map]
      apply any_congr_mem
      intro a _
      by_cases h : a.name = n
      · simp [Function.comp_apply, h]
      · simp [Function.comp_apply, beq_eq_false_iff_ne.mpr h, h]
    · simp [List.any_append, hbeq]

theorem any_name_copyAttrs_aux (nm : String) (as : List Attr) :
    ∀ acc : List Attr,
      ((as.foldl (fun acc a => setAttribute acc a.name a.value) acc).any
          (fun a => a.name == nm))
        = (acc.any (fun a => a.name == nm) || as.any (fun a => a.name == nm)) := by
  induction as with
  | nil => intro acc; simp
  | cons a rest ih =>
    intro acc
    rw [List.foldl_cons, ih, any_name_setAttribute]
    simp [Bool.or_assoc]

theorem any_name_copyAttrs (as : List Attr) (nm : String) :
    (copyAttrs as).any (fun a => a.name == nm) = as.any (fun a => a.name == nm) := by
  unfold copyAttrs
  rw [any_name_copyAttrs_aux]
  simp

theorem hasSrc_copyAttrs (as : List Attr) : hasSrc (copyAttrs as) = hasSrc as := by
  unfold hasSrc
  exact any_name_copyAttrs as "src"

theorem copyAttrs_aux_nodup (as : List Attr) :
    ∀ acc : List Attr, (as.map Attr.name).Nodup →
      (∀ a ∈ as, acc.any (fun b => b.name == a.name) = false) →
      as.foldl (fun acc a => setAttribute acc a.name a.value) acc = acc ++ as := by
  induction as with
  | nil => intro acc _ _; simp
  | cons a rest ih =>
    intro acc hnd hdisj
    rw [List.map_cons, List.nodup_cons] at hnd
    rw [List.foldl_cons]
    have hstep : setAttribute acc a.name a.value = acc ++ [a] := by
      unfold setAttribute
      rw [hdisj a (by simp)]
      rfl
    rw [hstep, ih (acc ++ [a]) hnd.2 ?_]
    · simp
    · intro b hb
      rw [List.any_append]
      have h1 : acc.any (fun c => c.name == b.name) = false :=
        hdisj b (List.mem_cons_of_mem a hb)
      have h2 : (a.name == b.name) = false := by
        apply beq_eq_false_iff_ne.mpr
        intro heq
        exact hnd.1 (heq ▸ List.mem_map_of_mem Attr.name hb)
      rw [h1]
      simp [h2]

theorem copyAttrs_nodup (as : List Attr) (h : (as.map Attr.name).Nodup) :
    copyAttrs as = as := by
  unfold copyAttrs
  rw [copyAttrs_aux_nodup as [] h (fun a _ => rfl)]
  simp

/-! ### Lemmas about one rehydration pass -/

theorem runNext_trace (env : Env) (rest : List ScriptDesc) :
    ∀ index tree log trace clock,
      (runNext env rest index tree log trace clock).trace = trace ++ rest := by
  induction rest with
  | nil => intro i t l tr ck; simp [runNext]
  | cons d rest ih =>
    intro i t l tr ck
    cases hs : hasSrc (attrsOf (mkReplacement d)) with
    | true =>
      cases hr : env.result i with
      | ok => simp [runNext, hs, hr, ih]
      | err => simp [runNext, hs, hr, ih]
    | false => simp [runNext, hs, ih]

theorem hasSrc_mkReplacement (d : ScriptDesc) :
    hasSrc (attrsOf (mkReplacement d)) = hasSrc d.attrs := by
  show hasSrc (copyAttrs d.attrs) = hasSrc d.attrs
  exact hasSrc_copyAttrs d.attrs

theorem runNext_logMap (env : Env) (rest : List ScriptDesc) :
    ∀ index tree log trace clock,
      (runNext env rest index tree log trace clock).log.map Prod.snd
        = log.map Prod.snd ++ expectedLog env index rest := by
  induction rest with
  | nil => intro i t l tr ck; simp [runNext, expectedLog]
  | cons d rest ih =>
    intro i t l tr ck
    cases hs : hasSrc d.attrs with
    | true =>
      cases hr : env.result i with
      | ok =>
        simp [runNext, hasSrc_mkReplacement, hs, hr, ih, expectedLog, executes,
          LoadResult.isOk]
      | err =>
        simp [runNext, hasSrc_mkReplacement, hs, hr, ih, expectedLog, executes,
          LoadResult.isOk]
    | false =>
      simp [runNext, hasSrc_mkReplacement, hs, ih, expectedLog, executes]

theorem expectedLog_sublist (env : Env) (ds : List ScriptDesc) :
    ∀ i, List.Sublist (expectedLog env i ds) (List.range' i ds.length) := by
  induction ds with
  | nil => intro i; simp [expectedLog]
  | cons d rest ih =>
    intro i
    rw [List.length_cons, List.range'_succ]
    cases hx : executes env i d with
    | true =>
      simp only [expectedLog, hx, if_true, List.singleton_append]
      exact List.Sublist.cons₂ i (ih (i + 1))
    | false =>
      simp only [expectedLog, hx, if_false, List.nil_append]
      exact List.Sublist.cons i (ih (i + 1))

theorem expectedLog_all_ok (env : Env) (h : ∀ i, (env.result i).isOk = true)
    (ds : List ScriptDesc) :
    ∀ i, expectedLog env i ds = List.range' i ds.length := by
  induction ds with
  | nil => intro i; simp [expectedLog]
  | cons d rest ih =>
    intro i
    have hx : executes env i d = true := by
      unfold executes
      rw [h i, Bool.or_true]
    rw [List.length_cons, List.range'_succ]
    simp only [expectedLog, hx, if_true, List.singleton_append, ih (i + 1)]

theorem textContent_setTextContent (t : String) :
    textContentList (setTextContent t) = t := by
  unfold setTextContent
  by_cases h : t = ""
  · simp [h, textContentList]
  · simp only [h, if_false, textContentList, textContent]
    exact String.append_empty t

/-! ### Claim theorems -/

/-- C1: a rehydration pass processes the snapshot strictly sequentially by
index, inline scripts completing at the swap and external scripts only at
their load signal, so when every external load succeeds the execution order
is exactly the snapshot order `0, 1, …, N-1` — for every environment, i.e.
regardless of the individual load latencies. -/
theorem C1_exec_order (env : Env) (c : Node)
    (h : ∀ i, (env.result i).isOk = true) :
    (executeScripts env c).log.map Prod.snd = List.range (snapshot c).length := by
  unfold executeScripts
  rw [runNext_logMap]
  rw [List.map_nil, List.nil_append]
  rw [expectedLog_all_ok env h (snapshot c) 0, List.range_eq_range']

theorem C1_exec_order_witness :
    (executeScripts envSlow docMixed).log.map Prod.snd
      = List.range (snapshot docMixed).length :=
  C1_exec_order envSlow docMixed (fun _ => rfl)

/-- C2: a failed external load is not escalated, retried or reported: the
error signal advances the pass exactly like a load signal, so every
descriptor is still processed (the trace is the whole snapshot for every
environment), the executed indices are exactly those whose script is inline
or whose load succeeded, and they form a subsequence of `0, …, N-1` (no
retry, no reordering). -/
theorem C2_failure_advances (env : Env) (c : Node) :
    (executeScripts env c).trace = snapshot c
      ∧ (executeScripts env c).log.map Prod.snd = expectedLog env 0 (snapshot c)
      ∧ List.Sublist ((executeScripts env c).log.map Prod.snd)
          (List.range (snapshot c).length) := by
  refine ⟨?_, ?_, ?_⟩
  · unfold executeScripts
    rw [runNext_trace]
    simp
  · unfold executeScripts
    rw [runNext_logMap]
    simp
  · unfold executeScripts
    rw [runNext_logMap]
    simp only [List.map_nil, List.nil_append]
    rw [List.range_eq_range']
    exact expectedLog_sublist env (snapshot c) 0

/-- C3: the replacement element carries exactly the original's attribute set
(the unconditional copy loop reproduces the attribute list verbatim, using
the DOM invariant that an element's attribute names are distinct) and its
text content equals the original's text content verbatim. -/
theorem C3_replacement_fidelity (d : ScriptDesc)
    (h : (d.attrs.map Attr.name).Nodup) :
    attrsOf (mkReplacement d) = d.attrs ∧ textContent (mkReplacement d) = d.text := by
  constructor
  · show copyAttrs d.attrs = d.attrs
    exact copyAttrs_nodup d.attrs h
  · show textContentList (setTextContent d.text) = d.text
    exact textContent_setTextContent d.text

theorem C3_replacement_fidelity_witness :
    attrsOf (mkReplacement ⟨[0], [⟨"data-x", "1"⟩, ⟨"data-y", "2"⟩], "t()"⟩)
        = [⟨"data-x", "1"⟩, ⟨"data-y", "2"⟩]
      ∧ textContent (mkReplacement ⟨[0], [⟨"data-x", "1"⟩, ⟨"data-y", "2"⟩], "t()"⟩)
          = "t()" :=
  C3_replacement_fidelity ⟨[0], [⟨"data-x", "1"⟩, ⟨"data-y", "2"⟩], "t()"⟩ (by decide)

/-- C5: a script carrying both an external source and non-empty inline text
is processed on the external branch — the pass's clock only advances when
the load/error signal fires (the sole execution, if the load succeeds, is
logged at the load time, not at the swap) — while the inline text is still
copied onto the replacement. -/
theorem C5_external_with_inline (env : Env) (c : Node) (d : ScriptDesc)
    (hs : snapshot c = [d]) (hsrc : hasSrc d.attrs = true) (ht : d.text ≠ "") :
    (executeScripts env c).clock = env.latency 0
      ∧ (executeScripts env c).log
          = (match env.result 0 with
             | .ok => [(env.latency 0, 0)]
             | .err => [])
      ∧ textContent (mkReplacement d) = d.text := by
  have hs' : hasSrc (attrsOf (mkReplacement d)) = true := by
    rw [hasSrc_mkReplacement]
    exact hsrc
  unfold executeScripts
  rw [hs]
  refine ⟨?_, ?_, ?_⟩
  · cases hr : env.result 0 with
    | ok => simp [runNext, hs', hr]
    | err => simp [runNext, hs', hr]
  · cases hr : env.result 0 with
    | ok => simp [runNext, hs', hr]
    | err => simp [runNext, hs', hr]
  · show textContentList (setTextContent d.text) = d.text
    exact textContent_setTextContent d.text

theorem C5_external_with_inline_witness :
    (executeScripts envSlow docExtInline).clock = envSlow.latency 0
      ∧ (executeScripts envSlow docExtInline).log
          = (match envSlow.result 0 with
             | .ok => [(envSlow.latency 0, 0)]
             | .err => [])
      ∧ textContent (mkReplacement ⟨[0], [⟨"src", "a.js"⟩], "x()"⟩) = "x()" :=
  C5_external_with_inline envSlow docExtInline ⟨[0], [⟨"src", "a.js"⟩], "x()"⟩
    rfl rfl (by decide)

/-- C6: on a container with no script elements the pass is a no-op: the tree
is returned unchanged, nothing executes, nothing is processed and no time
passes. -/
theorem C6_empty_noop (env : Env) (c : Node) (h : snapshot c = []) :
    executeScripts env c = ⟨c, [], [], 0⟩ := by
  unfold executeScripts
  rw [h]
  rfl

theorem C6_empty_noop_witness :
    executeScripts envAllOk docNoScripts = ⟨docNoScripts, [], [], 0⟩ :=
  C6_empty_noop envAllOk docNoScripts rfl

/-- C8 counterexample: a truthy non-string `html` field (here the number 42)
is stored unchanged by `data.html || ''`, not defaulted to the empty string,
so the claim as stated fails. -/
theorem C8_counterexample :
    constructorHtml (JsVal.num 42) = JsVal.num 42 ∧ JsVal.num 42 ≠ JsVal.str "" :=
  ⟨rfl, by decide⟩

/-- C8 (amended): a string `html` field is stored unchanged, and an absent or
otherwise falsy `html` field (undefined, null, false, 0, empty string)
initializes the stored markup to the empty string; truthy non-string values
are stored unchanged rather than defaulted. -/
theorem C8_ctor_html :
    (∀ s, constructorHtml (.str s) = .str s)
      ∧ (∀ v, truthy v = false → constructorHtml v = .str "") := by
  constructor
  · intro s
    unfold constructorHtml jsOr
    cases h : truthy (.str s) with
    | true => simp [h]
    | false =>
      simp only [h, Bool.false_eq_true, if_false]
      have hs : s = "" := by
        unfold truthy at h
        simpa using h
      rw [hs]
  · intro v h
    unfold constructorHtml jsOr
    simp [h]

theorem C8_ctor_html_witness :
    constructorHtml JsVal.undef = JsVal.str ""
      ∧ constructorHtml (JsVal.str "x") = JsVal.str "x" :=
  ⟨C8_ctor_html.2 JsVal.undef rfl, C8_ctor_html.1 "x"⟩

/-- C9: in read-only mode the wrapper's second child is a sub-node holding
the parsed stored markup (parser-based insertion, inert by construction) and
`_executeScripts` is scheduled against that sub-node with a fixed 100 ms
delay; in editable mode there is no such sub-node (the wrapper holds only the
textarea) and no script execution is ever scheduled (only the resize pass). -/
theorem C9_render (parse : String → List Node) (bc ic html ph : String) :
    getChild 1 (childrenOf (render parse bc ic true html ph).wrapper)
        = some (.elem "div" [] (nodeListOf (parse html)))
      ∧ (render parse bc ic true html ph).timers
          = [⟨renderingTime, .execScriptsOn 1⟩, ⟨renderingTime, .resize⟩]
      ∧ renderingTime = 100
      ∧ childrenOf (render parse bc ic false html ph).wrapper
          = .cons (.elem "textarea"
              [⟨"class", "ce-rawtool__textarea " ++ ic⟩, ⟨"placeholder", ph⟩]
              (setTextContent html)) .nil
      ∧ (render parse bc ic false html ph).timers = [⟨renderingTime, .resize⟩] :=
  ⟨rfl, rfl, rfl, rfl, rfl⟩

/-- C10: the set of scripts a pass processes is materialized once at pass
start: for every environment — including ones whose script effects insert
new script elements into the container — the processed trace is exactly the
initial snapshot, and the pass performs exactly that many steps. -/
theorem C10_snapshot_materialized (env : Env) (c : Node) :
    (executeScripts env c).trace = snapshot c
      ∧ (executeScripts env c).trace.length = (snapshot c).length := by
  have h : (executeScripts env c).trace = snapshot c := by
    unfold executeScripts
    rw [runNext_trace]
    simp
  exact ⟨h, by rw [h]⟩

/-! ### Induction principles for the mutual Node/NodeList inductive -/

theorem nodeList_ind {motive : NodeList → Prop}
    (hnil : motive .nil)
    (hcons : ∀ (c : Node) (cs : NodeList), motive cs → motive (.cons c cs)) :
    ∀ cs, motive cs
  | .nil => hnil
  | .cons c cs => hcons c cs (nodeList_ind hnil hcons cs)

mutual
theorem node_ind_n {mn : Node → Prop} {ml : NodeList → Prop}
    (htext : ∀ s, mn (.text s))
    (helem : ∀ t a cs, ml cs → mn (.elem t a cs))
    (hnil : ml .nil)
    (hcons : ∀ c cs, mn c → ml cs → ml (.cons c cs)) :
    ∀ n, mn n
  | .text s => htext s
  | .elem t a cs => helem t a cs (node_ind_l htext helem hnil hcons cs)
theorem node_ind_l {mn : Node → Prop} {ml : NodeList → Prop}
    (htext : ∀ s, mn (.text s))
    (helem : ∀ t a cs, ml cs → mn (.elem t a cs))
    (hnil : ml .nil)
    (hcons : ∀ c cs, mn c → ml cs → ml (.cons c cs)) :
    ∀ cs, ml cs
  | .nil => hnil
  | .cons c cs =>
      hcons c cs (node_ind_n htext helem hnil hcons c) (node_ind_l htext helem hnil hcons cs)
end

/-! ### Position preservation of the swap (claim C4) -/

theorem mapAtChild_const (x : Node) :
    ∀ (cs : NodeList) (j : Nat), mapAtChild (fun _ => x) j cs = setChild j x cs := by
  intro cs
  induction cs using nodeList_ind with
  | hnil => intro j; cases j <;> rfl
  | hcons c cs ih =>
    intro j
    cases j with
    | zero => rfl
    | succ j => simp [mapAtChild, setChild, ih]

theorem getChild_setChild_self :
    ∀ (cs : NodeList) (j : Nat) (old x : Node),
      getChild j cs = some old → getChild j (setChild j x cs) = some x := by
  intro cs
  induction cs using nodeList_ind with
  | hnil => intro j old x h; cases j <;> simp [getChild] at h
  | hcons c cs ih =>
    intro j old x h
    cases j with
    | zero => rfl
    | succ j => exact ih j old x h

theorem getChild_setChild_ne :
    ∀ (cs : NodeList) (j k : Nat) (x : Node),
      k ≠ j → getChild k (setChild j x cs) = getChild k cs := by
  intro cs
  induction cs using nodeList_ind with
  | hnil => intro j k x _; cases j <;> rfl
  | hcons c cs ih =>
    intro j k x hk
    cases j with
    | zero =>
      cases k with
      | zero => exact absurd rfl hk
      | succ k => rfl
    | succ j =>
      cases k with
      | zero => rfl
      | succ k => exact ih j k x (fun h => hk (by rw [h]))

theorem getChild_mapAtChild_self (f : Node → Node) :
    ∀ (cs : NodeList) (j : Nat),
      getChild j (mapAtChild f j cs) = (getChild j cs).map f := by
  intro cs
  induction cs using nodeList_ind with
  | hnil => intro j; cases j <;> rfl
  | hcons c cs ih =>
    intro j
    cases j with
    | zero => rfl
    | succ j => exact ih j

theorem getN_replaceAt_parent (pp : List Nat) :
    ∀ (c : Node) (t : String) (a : List Attr) (cs : NodeList) (j : Nat) (new : Node),
      getN pp c = some (.elem t a cs) →
      getN pp (replaceAt (pp ++ [j]) c new) = some (.elem t a (setChild j new cs)) := by
  induction pp with
  | nil =>
    intro c t a cs j new h
    simp only [getN, Option.some_inj] at h
    subst h
    show getN [] (.elem t a (mapAtChild (fun c => replaceAt [] c new) j cs)) = _
    rw [show (fun c => replaceAt [] c new) = (fun _ : Node => new) from rfl,
      mapAtChild_const]
    rfl
  | cons k pp ih =>
    intro c t a cs j new h
    cases c with
    | text s => simp [getN] at h
    | elem tag as kids =>
      rw [getN] at h
      cases hg : getChild k kids with
      | none => rw [hg] at h; simp at h
      | some c0 =>
        rw [hg] at h
        simp only [Option.some_bind] at h
        show getN (k :: pp) (replaceAt (k :: (pp ++ [j])) (.elem tag as kids) new) = _
        rw [replaceAt, getN, getChild_mapAtChild_self, hg]
        simp only [Option.map_some', Option.some_bind]
        exact ih c0 t a cs j new h

/-- C4: the replacement element occupies exactly the original's DOM position:
the parent element at path `pp` keeps its tag and attributes, its child list
is the original with only position `j` replaced by the new element, and every
sibling other than position `j` is unchanged. -/
theorem C4_replacement_position (pp : List Nat) (c : Node) (t : String)
    (a : List Attr) (cs : NodeList) (j : Nat) (old new : Node)
    (hp : getN pp c = some (.elem t a cs)) (hc : getChild j cs = some old) :
    getN pp (replaceAt (pp ++ [j]) c new) = some (.elem t a (setChild j new cs))
      ∧ getChild j (setChild j new cs) = some new
      ∧ ∀ k, k ≠ j → getChild k (setChild j new cs) = getChild k cs :=
  ⟨getN_replaceAt_parent pp c t a cs j new hp,
   getChild_setChild_self cs j old new hc,
   fun k hk => getChild_setChild_ne cs j k new hk⟩

theorem C4_replacement_position_witness :
    getN [] (replaceAt ([] ++ [1]) docSib newScr)
        = some (.elem "div" [] (setChild 1 newScr sibKids))
      ∧ getChild 1 (setChild 1 newScr sibKids) = some newScr
      ∧ getChild 0 (setChild 1 newScr sibKids) = getChild 0 sibKids
      ∧ getChild 2 (setChild 1 newScr sibKids) = getChild 2 sibKids := by
  have h := C4_replacement_position [] docSib "div" [] sibKids 1
    (scrInline "mid()") newScr rfl rfl
  exact ⟨h.1, h.2.1, h.2.2 0 (by decide), h.2.2 2 (by decide)⟩

/-! ### Snapshot structure lemmas (toward claim C7) -/

theorem getChild_mapAtChild_ne (f : Node → Node) :
    ∀ (cs : NodeList) (j k : Nat), k ≠ j →
      getChild k (mapAtChild f j cs) = getChild k cs := by
  intro cs
  induction cs using nodeList_ind with
  | hnil => intro j k _; cases j <;> rfl
  | hcons c cs ih =>
    intro j k hk
    cases j with
    | zero =>
      cases k with
      | zero => exact absurd rfl hk
      | succ k => rfl
    | succ j =>
      cases k with
      | zero => rfl
      | succ k => exact ih j k (fun h => hk (by rw [h]))

theorem map_updAt_id (q : List Nat) (A : List Attr) (t : String) :
    ∀ l : List ScriptDesc, (∀ e ∈ l, e.path ≠ q) → l.map (updAt q A t) = l := by
  intro l
  induction l with
  | nil => intro _; rfl
  | cons e l ih =>
    intro h
    rw [List.map_cons, ih (fun x hx => h x (List.mem_cons_of_mem e hx))]
    have he : updAt q A t e = e := by
      unfold updAt
      rw [if_neg (h e (List.mem_cons_self e l))]
    rw [he]

theorem ps_both :
    (∀ (n : Node) (pre : List Nat) (i : Nat) (d : ScriptDesc),
        d ∈ snapNode pre i n → ∃ r, d.path = pre ++ i :: r)
      ∧ (∀ (cs : NodeList) (pre : List Nat) (i : Nat) (d : ScriptDesc),
          d ∈ snapKids pre i cs → ∃ m r, d.path = pre ++ m :: r ∧ i ≤ m) := by
  have p1 : ∀ s : String, ∀ (pre : List Nat) (i : Nat) (d : ScriptDesc),
      d ∈ snapNode pre i (.text s) → ∃ r, d.path = pre ++ i :: r := by
    intro s pre i d hd
    simp [snapNode] at hd
  have p3 : ∀ (pre : List Nat) (i : Nat) (d : ScriptDesc),
      d ∈ snapKids pre i .nil → ∃ m r, d.path = pre ++ m :: r ∧ i ≤ m := by
    intro pre i d hd
    simp [snapKids] at hd
  have p2 : ∀ (t : String) (a : List Attr) (cs : NodeList),
      (∀ (pre : List Nat) (i : Nat) (d : ScriptDesc),
          d ∈ snapKids pre i cs → ∃ m r, d.path = pre ++ m :: r ∧ i ≤ m) →
      ∀ (pre : List Nat) (i : Nat) (d : ScriptDesc),
        d ∈ snapNode pre i (.elem t a cs) → ∃ r, d.path = pre ++ i :: r := by
    intro t a cs ihl pre i d hd
    rw [snapNode] at hd
    rcases List.mem_append.mp hd with hl | hr
    · by_cases hsc : (t == "script") = true
      · rw [if_pos hsc] at hl
        rcases List.mem_singleton.mp hl with rfl
        exact ⟨[], rfl⟩
      · rw [if_neg hsc] at hl
        exact absurd hl (List.not_mem_nil d)
    · obtain ⟨m, r, hp, _⟩ := ihl (pre ++ [i]) 0 d hr
      refine ⟨m :: r, ?_⟩
      rw [hp, List.append_assoc]
      rfl
  have p4 : ∀ (c : Node) (cs : NodeList),
      (∀ (pre : List Nat) (i : Nat) (d : ScriptDesc),
          d ∈ snapNode pre i c → ∃ r, d.path = pre ++ i :: r) →
      (∀ (pre : List Nat) (i : Nat) (d : ScriptDesc),
          d ∈ snapKids pre i cs → ∃ m r, d.path = pre ++ m :: r ∧ i ≤ m) →
      ∀ (pre : List Nat) (i : Nat) (d : ScriptDesc),
        d ∈ snapKids pre i (.cons c cs) → ∃ m r, d.path = pre ++ m :: r ∧ i ≤ m := by
    intro c cs ihn ihl pre i d hd
    rw [snapKids] at hd
    rcases List.mem_append.mp hd with hl | hr
    · obtain ⟨r, hp⟩ := ihn pre i d hl
      exact ⟨i, r, hp, Nat.le_refl i⟩
    · obtain ⟨m, r, hp, hm⟩ := ihl pre (i + 1) d hr
      exact ⟨m, r, hp, by omega⟩
  exact ⟨fun n => node_ind_n p1 p2 p3 p4 n, fun cs => node_ind_l p1 p2 p3 p4 cs⟩

theorem snapNode_updAt_ne (c : Node) (pre : List Nat) (i m : Nat) (p : List Nat)
    (A : List Attr) (t : String) (h : m ≠ i) :
    (snapNode pre i c).map (updAt (pre ++ m :: p) A t) = snapNode pre i c := by
  apply map_updAt_id
  intro e he
  obtain ⟨r, hp⟩ := ps_both.1 c pre i e he
  rw [hp]
  intro hcontra
  have h2 := List.append_cancel_left hcontra
  have h3 : i = m := ((List.cons.injEq _ _ _ _).mp h2).1
  exact h h3.symm

theorem snapKids_updAt_high (cs : NodeList) (pre : List Nat) (i m : Nat) (p : List Nat)
    (A : List Attr) (t : String) (hmi : m < i) :
    (snapKids pre i cs).map (updAt (pre ++ m :: p) A t) = snapKids pre i cs := by
  apply map_updAt_id
  intro e he
  obtain ⟨m', r, hp, hm'⟩ := ps_both.2 cs pre i e he
  rw [hp]
  intro hcontra
  have h2 := List.append_cancel_left hcontra
  have h3 : m' = m := ((List.cons.injEq _ _ _ _).mp h2).1
  omega

theorem noScripts_snap :
    (∀ (n : Node), noScriptsN n = true → ∀ (pre : List Nat) (i : Nat), snapNode pre i n = [])
      ∧ (∀ (cs : NodeList), noScriptsL cs = true →
          ∀ (pre : List Nat) (i : Nat), snapKids pre i cs = []) := by
  have p1 : ∀ s : String, noScriptsN (.text s) = true →
      ∀ (pre : List Nat) (i : Nat), snapNode pre i (.text s) = [] := by
    intro s _ pre i; rfl
  have p3 : noScriptsL .nil = true →
      ∀ (pre : List Nat) (i : Nat), snapKids pre i .nil = [] := by
    intro _ pre i; rfl
  have p2 : ∀ (t : String) (a : List Attr) (cs : NodeList),
      (noScriptsL cs = true → ∀ (pre : List Nat) (i : Nat), snapKids pre i cs = []) →
      noScriptsN (.elem t a cs) = true →
      ∀ (pre : List Nat) (i : Nat), snapNode pre i (.elem t a cs) = [] := by
    intro t a cs ih h pre i
    rw [noScriptsN] at h
    obtain ⟨ht, hcs⟩ := Bool.and_eq_true_iff.mp h
    have ht' : (t == "script") = false := by simpa using ht
    rw [snapNode, if_neg (by rw [ht']; exact Bool.false_ne_true), ih hcs]
    rfl
  have p4 : ∀ (c : Node) (cs : NodeList),
      (noScriptsN c = true → ∀ (pre : List Nat) (i : Nat), snapNode pre i c = []) →
      (noScriptsL cs = true → ∀ (pre : List Nat) (i : Nat), snapKids pre i cs = []) →
      noScriptsL (.cons c cs) = true →
      ∀ (pre : List Nat) (i : Nat), snapKids pre i (.cons c cs) = [] := by
    intro c cs ihn ihl h pre i
    rw [noScriptsL] at h
    obtain ⟨h1, h2⟩ := Bool.and_eq_true_iff.mp h
    rw [snapKids, ihn h1 pre i, ihl h2 pre (i + 1)]
    rfl
  exact ⟨fun n => node_ind_n p1 p2 p3 p4 n, fun cs => node_ind_l p1 p2 p3 p4 cs⟩

theorem snapKids_mapAtChild (A : List Attr) (ks : NodeList) (hk : noScriptsL ks = true) :
    ∀ (p : List Nat) (cs : NodeList) (j i : Nat) (pre : List Nat) (c0 : Node),
      getChild j cs = some c0 → okN p c0 = true →
      snapKids pre i (mapAtChild (fun c => replaceAt p c (.elem "script" A ks)) j cs)
        = (snapKids pre i cs).map
            (updAt (pre ++ (i + j) :: p) A (textContentList ks)) := by
  intro p
  induction p with
  | nil =>
    intro cs
    induction cs using nodeList_ind with
    | hnil =>
      intro j i pre c0 hg hok
      cases j <;> simp [getChild] at hg
    | hcons c cs ih =>
      intro j i pre c0 hg hok
      cases j with
      | zero =>
        simp only [getChild, Option.some_inj] at hg
        subst hg
        cases c with
        | text s => simp [okN] at hok
        | elem t a kids =>
          rw [okN] at hok
          obtain ⟨hts, hnos⟩ := Bool.and_eq_true_iff.mp hok
          have ht : t = "script" := eq_of_beq hts
          subst ht
          show snapKids pre i
              (.cons (replaceAt [] (.elem "script" a kids) (.elem "script" A ks)) cs) = _
          rw [show replaceAt [] (Node.elem "script" a kids) (.elem "script" A ks)
              = .elem "script" A ks from rfl]
          simp only [Nat.add_zero, snapKids, snapNode, beq_self_eq_true, if_true]
          rw [noScripts_snap.2 ks hk, noScripts_snap.2 kids hnos]
          rw [List.map_append,
            snapKids_updAt_high cs pre (i + 1) i [] A (textContentList ks) (by omega)]
          simp [updAt]
      | succ j =>
        simp only [getChild] at hg
        show snapKids pre i
            (.cons c (mapAtChild (fun c => replaceAt [] c (.elem "script" A ks)) j cs)) = _
        simp only [snapKids]
        rw [ih j (i + 1) pre c0 hg hok]
        rw [List.map_append,
          snapNode_updAt_ne c pre i (i + (j + 1)) [] A (textContentList ks) (by omega)]
        have harith : i + 1 + j = i + (j + 1) := by omega
        rw [harith]
  | cons m p ihp =>
    intro cs
    induction cs using nodeList_ind with
    | hnil =>
      intro j i pre c0 hg hok
      cases j <;> simp [getChild] at hg
    | hcons c cs ih =>
      intro j i pre c0 hg hok
      cases j with
      | zero =>
        simp only [getChild, Option.some_inj] at hg
        subst hg
        cases c with
        | text s => simp [okN] at hok
        | elem t a kids =>
          rw [okN] at hok
          obtain ⟨htn, hrest⟩ := Bool.and_eq_true_iff.mp hok
          have ht : (t == "script") = false := by simpa using htn
          cases hg2 : getChild m kids with
          | none => rw [hg2] at hrest; exact absurd hrest (by simp)
          | some c1 =>
            rw [hg2] at hrest
            show snapKids pre i
                (.cons (replaceAt (m :: p) (.elem t a kids) (.elem "script" A ks)) cs) = _
            rw [show replaceAt (m :: p) (Node.elem t a kids) (.elem "script" A ks)
                = .elem t a (mapAtChild
                    (fun c => replaceAt p c (.elem "script" A ks)) m kids) from rfl]
            simp only [Nat.add_zero, snapKids, snapNode, ht, Bool.false_eq_true, if_false,
              List.nil_append]
            rw [ihp kids m 0 (pre ++ [i]) c1 hg2 hrest]
            rw [List.map_append,
              snapKids_updAt_high cs pre (i + 1) i (m :: p) A (textContentList ks) (by omega)]
            rw [Nat.zero_add, List.append_assoc]
            rfl
      | succ j =>
        simp only [getChild] at hg
        show snapKids pre i
            (.cons c (mapAtChild
              (fun c => replaceAt (m :: p) c (.elem "script" A ks)) j cs)) = _
        simp only [snapKids]
        rw [ih j (i + 1) pre c0 hg hok]
        rw [List.map_append,
          snapNode_updAt_ne c pre i (i + (j + 1)) (m :: p) A (textContentList ks) (by omega)]
        have harith : i + 1 + j = i + (j + 1) := by omega
        rw [harith]

theorem snapshot_replaceAt (c : Node) (q : List Nat) (A : List Attr) (ks : NodeList)
    (hk : noScriptsL ks = true) (hok : okC c q = true) :
    snapshot (replaceAt q c (.elem "script" A ks))
      = (snapshot c).map (updAt q A (textContentList ks)) := by
  cases c with
  | text s => cases q <;> simp [okC] at hok
  | elem t a cs =>
    cases q with
    | nil => simp [okC] at hok
    | cons j p =>
      cases hg : getChild j cs with
      | none =>
        have : okC (.elem t a cs) (j :: p)
            = (match getChild j cs with | none => false | some c => okN p c) := rfl
        rw [this, hg] at hok
        exact absurd hok (by simp)
      | some c0 =>
        have hok' : okN p c0 = true := by
          have heq : okC (.elem t a cs) (j :: p)
              = (match getChild j cs with | none => false | some c => okN p c) := rfl
          rw [heq, hg] at hok
          exact hok
        show snapshot (.elem t a
            (mapAtChild (fun c => replaceAt p c (.elem "script" A ks)) j cs)) = _
        simp only [snapshot]
        rw [snapKids_mapAtChild A ks hk p cs j 0 [] c0 hg hok']
        rw [Nat.zero_add]
        rfl

theorem okN_replaceAt (A : List Attr) (ks : NodeList) (hk : noScriptsL ks = true) :
    ∀ (q p : List Nat) (c : Node), okN p c = true → okN q c = true →
      okN q (replaceAt p c (.elem "script" A ks)) = true := by
  intro q
  induction q with
  | nil =>
    intro p c hp hq
    cases c with
    | text s => simp [okN] at hq
    | elem t a kids =>
      rw [okN] at hq
      obtain ⟨hts, _⟩ := Bool.and_eq_true_iff.mp hq
      cases p with
      | nil =>
        show okN [] (.elem "script" A ks) = true
        rw [okN]
        simp [hk]
      | cons m p' =>
        rw [okN] at hp
        obtain ⟨htn, _⟩ := Bool.and_eq_true_iff.mp hp
        rw [hts] at htn
        simp at htn
  | cons k q' ihq =>
    intro p c hp hq
    cases c with
    | text s => simp [okN] at hq
    | elem t a kids =>
      rw [okN] at hq
      obtain ⟨htn, hq2⟩ := Bool.and_eq_true_iff.mp hq
      cases hgk : getChild k kids with
      | none => rw [hgk] at hq2; exact absurd hq2 (by simp)
      | some ck =>
        rw [hgk] at hq2
        cases p with
        | nil =>
          rw [okN] at hp
          obtain ⟨hts, _⟩ := Bool.and_eq_true_iff.mp hp
          rw [hts] at htn
          simp at htn
        | cons j p' =>
          rw [okN] at hp
          obtain ⟨_, hp2⟩ := Bool.and_eq_true_iff.mp hp
          cases hgj : getChild j kids with
          | none => rw [hgj] at hp2; exact absurd hp2 (by simp)
          | some cj =>
            rw [hgj] at hp2
            show okN (k :: q') (.elem t a
                (mapAtChild (fun c => replaceAt p' c (.elem "script" A ks)) j kids)) = true
            rw [okN, htn, Bool.true_and]
            by_cases hkj : k = j
            · subst hkj
              rw [getChild_mapAtChild_self, hgj]
              simp only [Option.map_some']
              show okN q' (replaceAt p' cj (.elem "script" A ks)) = true
              have hceq : ck = cj := by
                rw [hgj] at hgk
                exact (Option.some_inj.mp hgk).symm
              exact ihq p' cj hp2 (hceq ▸ hq2)
            · rw [getChild_mapAtChild_ne _ kids j k hkj, hgk]
              show okN q' ck = true
              exact hq2

theorem okC_replaceAt (A : List Attr) (ks : NodeList) (hk : noScriptsL ks = true)
    (c : Node) (p q : List Nat) (hp : okC c p = true) (hq : okC c q = true) :
    okC (replaceAt p c (.elem "script" A ks)) q = true := by
  cases c with
  | text s => cases p <;> simp [okC] at hp
  | elem t a cs =>
    cases p with
    | nil => simp [okC] at hp
    | cons j p' =>
      cases q with
      | nil => simp [okC] at hq
      | cons k q' =>
        cases hgj : getChild j cs with
        | none =>
          have heq : okC (.elem t a cs) (j :: p')
              = (match getChild j cs with | none => false | some c => okN p' c) := rfl
          rw [heq, hgj] at hp
          exact absurd hp (by simp)
        | some cj =>
          have hp' : okN p' cj = true := by
            have heq : okC (.elem t a cs) (j :: p')
                = (match getChild j cs with | none => false | some c => okN p' c) := rfl
            rw [heq, hgj] at hp
            exact hp
          cases hgk : getChild k cs with
          | none =>
            have heq : okC (.elem t a cs) (k :: q')
                = (match getChild k cs with | none => false | some c => okN q' c) := rfl
            rw [heq, hgk] at hq
            exact absurd hq (by simp)
          | some ck =>
            have hq' : okN q' ck = true := by
              have heq : okC (.elem t a cs) (k :: q')
                  = (match getChild k cs with | none => false | some c => okN q' c) := rfl
              rw [heq, hgk] at hq
              exact hq
            show okC (.elem t a
                (mapAtChild (fun c => replaceAt p' c (.elem "script" A ks)) j cs))
                (k :: q') = true
            have heq2 : okC (.elem t a
                (mapAtChild (fun c => replaceAt p' c (.elem "script" A ks)) j cs))
                (k :: q')
                = (match getChild k
                      (mapAtChild (fun c => replaceAt p' c (.elem "script" A ks)) j cs) with
                   | none => false
                   | some c => okN q' c) := rfl
            rw [heq2]
            by_cases hkj : k = j
            · subst hkj
              rw [getChild_mapAtChild_self, hgj]
              simp only [Option.map_some']
              show okN q' (replaceAt p' cj (.elem "script" A ks)) = true
              have hceq : ck = cj := by
                rw [hgj] at hgk
                exact (Option.some_inj.mp hgk).symm
              exact okN_replaceAt A ks hk q' p' cj hp' (hceq ▸ hq')
            · rw [getChild_mapAtChild_ne _ cs j k hkj, hgk]
              show okN q' ck = true
              exact hq'

theorem snapshot_applyAll_inline :
    ∀ (ds : List ScriptDesc) (c : Node),
      (∀ d ∈ ds, okC c d.path = true) →
      (∀ d ∈ ds, hasSrc d.attrs = false) →
      (∀ e ∈ snapshot c, hasSrc e.attrs = false) →
      (snapshot (applyAll c ds)).length = (snapshot c).length
        ∧ ∀ e ∈ snapshot (applyAll c ds), hasSrc e.attrs = false := by
  intro ds
  induction ds with
  | nil =>
    intro c _ _ hprof
    exact ⟨rfl, hprof⟩
  | cons d ds ih =>
    intro c hok hinl hprof
    have hks : noScriptsL (setTextContent d.text) = true := by
      unfold setTextContent
      split <;> rfl
    have happ : applyAll c (d :: ds) = applyAll (replaceAt d.path c (mkReplacement d)) ds := by
      unfold applyAll
      rw [List.foldl_cons]
    have hok_d := hok d (List.mem_cons_self d ds)
    have hsnap1 : snapshot (replaceAt d.path c (mkReplacement d))
        = (snapshot c).map
            (updAt d.path (copyAttrs d.attrs) (textContentList (setTextContent d.text))) := by
      show snapshot (replaceAt d.path c
          (.elem "script" (copyAttrs d.attrs) (setTextContent d.text))) = _
      exact snapshot_replaceAt c d.path _ _ hks hok_d
    have hok1 : ∀ e ∈ ds, okC (replaceAt d.path c (mkReplacement d)) e.path = true := by
      intro e he
      show okC (replaceAt d.path c
          (.elem "script" (copyAttrs d.attrs) (setTextContent d.text))) e.path = true
      exact okC_replaceAt _ _ hks c d.path e.path hok_d (hok e (List.mem_cons_of_mem d he))
    have hprof1 : ∀ e ∈ snapshot (replaceAt d.path c (mkReplacement d)),
        hasSrc e.attrs = false := by
      rw [hsnap1]
      intro e he
      obtain ⟨e0, he0, heq⟩ := List.mem_map.mp he
      rw [← heq]
      unfold updAt
      split
      · show hasSrc (copyAttrs d.attrs) = false
        rw [hasSrc_copyAttrs]
        exact hinl d (List.mem_cons_self d ds)
      · exact hprof e0 he0
    obtain ⟨hlen, hpr⟩ := ih (replaceAt d.path c (mkReplacement d)) hok1
      (fun e he => hinl e (List.mem_cons_of_mem d he)) hprof1
    rw [happ]
    refine ⟨?_, hpr⟩
    rw [hlen, hsnap1, List.length_map]

theorem runNext_tree_id (env : Env) (heff : ∀ i t, env.eff i t = t) :
    ∀ (rest : List ScriptDesc) (index : Nat) (tree : Node) (log : List (Nat × Nat))
      (trace : List ScriptDesc) (clock : Nat),
      (runNext env rest index tree log trace clock).tree = applyAll tree rest := by
  intro rest
  induction rest with
  | nil => intro i t l tr ck; rfl
  | cons d rest ih =>
    intro i t l tr ck
    have happ : applyAll t (d :: rest) = applyAll (replaceAt d.path t (mkReplacement d)) rest := by
      unfold applyAll
      rw [List.foldl_cons]
    cases hs : hasSrc (attrsOf (mkReplacement d)) with
    | true =>
      cases hr : env.result i with
      | ok => simp [runNext, hs, hr, heff, ih, happ]
      | err => simp [runNext, hs, hr, ih, happ]
    | false => simp [runNext, hs, heff, ih, happ]

theorem expectedLog_length_inline (env : Env) :
    ∀ (ds : List ScriptDesc), (∀ d ∈ ds, hasSrc d.attrs = false) →
      ∀ i, (expectedLog env i ds).length = ds.length := by
  intro ds
  induction ds with
  | nil => intro _ i; rfl
  | cons d ds ih =>
    intro h i
    have hx : executes env i d = true := by
      unfold executes
      rw [h d (List.mem_cons_self d ds)]
      rfl
    simp only [expectedLog, hx, if_true, List.singleton_append, List.length_cons]
    rw [ih (fun e he => h e (List.mem_cons_of_mem d he)) (i + 1)]

/-- C7: rehydration is not idempotent: on a container of inline scripts (with
the DOM invariants that scripts are not nested inside scripts), every pass
replaces each script with a fresh script element at the same position, so a
second invocation of the pass re-executes every script again — each pass
logs exactly N executions and the two passes together log 2 × N, with no
deduplication. -/
theorem C7_not_idempotent (env : Env) (c : Node)
    (heff : ∀ i t, env.eff i t = t)
    (hok : ∀ d ∈ snapshot c, okC c d.path = true)
    (hinl : ∀ d ∈ snapshot c, hasSrc d.attrs = false) :
    (executeScripts env c).log.length = (snapshot c).length
      ∧ (executeScripts env (executeScripts env c).tree).log.length = (snapshot c).length
      ∧ (executeScripts env c).log.length
          + (executeScripts env (executeScripts env c).tree).log.length
          = 2 * (snapshot c).length := by
  have hlog : ∀ (c' : Node), (∀ d ∈ snapshot c', hasSrc d.attrs = false) →
      (executeScripts env c').log.length = (snapshot c').length := by
    intro c' hin
    have hm : (executeScripts env c').log.map Prod.snd = expectedLog env 0 (snapshot c') := by
      unfold executeScripts
      rw [runNext_logMap]
      simp
    have hlm := congrArg List.length hm
    rw [List.length_map] at hlm
    rw [hlm, expectedLog_length_inline env (snapshot c') hin 0]
  have htree : (executeScripts env c).tree = applyAll c (snapshot c) := by
    unfold executeScripts
    exact runNext_tree_id env heff (snapshot c) 0 c [] [] 0
  obtain ⟨hlen2, hprof2⟩ := snapshot_applyAll_inline (snapshot c) c hok hinl hinl
  have h1 := hlog c hinl
  have h2 : (executeScripts env (executeScripts env c).tree).log.length
      = (snapshot c).length := by
    rw [htree, hlog (applyAll c (snapshot c)) hprof2, hlen2]
  exact ⟨h1, h2, by omega⟩

theorem C7_not_idempotent_witness :
    (executeScripts envAllOk docTwoInline).log.length = (snapshot docTwoInline).length
      ∧ (executeScripts envAllOk (executeScripts envAllOk docTwoInline).tree).log.length
          = (snapshot docTwoInline).length
      ∧ (executeScripts envAllOk docTwoInline).log.length
          + (executeScripts envAllOk (executeScripts envAllOk docTwoInline).tree).log.length
          = 2 * (snapshot docTwoInline).length :=
  C7_not_idempotent envAllOk docTwoInline (fun _ _ => rfl) (by decide) (by decide)
